import Mathlib

/-!
Shallow embedding of the assignment-ledger logic of the inventory
application (src/app.py).  Equipment records, the per-serial history
ledger, the employee roster and the equipment-type catalog are modelled
as Lean structures; each mutating handler of the application becomes a
pure function on an `AppState`.  Python dicts are modelled as
association lists that preserve insertion order (as CPython dicts do),
`datetime.strptime(s, "%d.%m.%Y")` becomes `parseDate`, and an
uncaught exception escaping a handler is modelled by `Option.none`.
-/

namespace Inventory

/-- One entry of the history ledger: the dict built in
`add_to_history` from the assignment and date strings. -/
structure HistoryEntry where
  assignment : String
  date : String
deriving DecidableEq, Repr

/-- One equipment record of `inventory.json` (`equipment_data` in
`add_equipment`). -/
structure EquipmentRecord where
  equipment_type : String
  model : String
  serial_number : String
  assignment : String
  date : String
  comments : String
  created_datetime : String
deriving DecidableEq, Repr

/-- One row of the transfers report built by
`generate_transfers_report`. -/
structure Transfer where
  equipment_type : String
  serial : String
  fromEmp : String
  toEmp : String
  date : String
deriving DecidableEq, Repr

/-- The history ledger `self.history_data`: a Python dict mapping serial
number to a list of entries, modelled as an insertion-ordered
association list with pairwise-distinct keys. -/
abbrev HistMap := List (String × List HistoryEntry)

/-- The in-memory state of the application: `self.inventory_data`,
`self.history_data`, `self.employees_list`, `self.equipment_types`. -/
structure AppState where
  inventory : List EquipmentRecord
  history : HistMap
  employees : List String
  equipment_types : List String
deriving DecidableEq, Repr

/-- Characters of a string with surrounding whitespace removed; model
of Python's `str.strip()`, written by structural recursion so that
proofs can evaluate it. -/
def stripChars (l : List Char) : List Char :=
  (((l.dropWhile Char.isWhitespace).reverse.dropWhile Char.isWhitespace).reverse)

/-- Model of Python's `str.strip()`. -/
def strip (s : String) : String := ⟨stripChars s.data⟩

/-- Split a character list at every dot, keeping empty chunks, as
Python's `str.split` with a single-character separator does. -/
def splitDotsAux : List Char → List Char → List (List Char)
  | [], acc => [acc.reverse]
  | c :: cs, acc =>
    if c = '.' then acc.reverse :: splitDotsAux cs [] else splitDotsAux cs (c :: acc)

/-- Dot-separated chunks of a string's characters. -/
def splitDots (s : String) : List (List Char) := splitDotsAux s.data []

/-- Numeric value of an all-digit character list. -/
def digitsVal : List Char → Nat → Option Nat
  | [], acc => some acc
  | c :: cs, acc => if c.isDigit then digitsVal cs (acc * 10 + (c.toNat - 48)) else none

/-- Value of a non-empty all-digit character list, `none` otherwise. -/
def digits? : List Char → Option Nat
  | [] => none
  | l => digitsVal l 0

/-- Length of February depending on the Gregorian leap rule used by
Python's `datetime`. -/
def daysInMonth (y m : Nat) : Nat :=
  if m = 2 then
    if y % 4 = 0 ∧ (y % 100 ≠ 0 ∨ y % 400 = 0) then 29 else 28
  else if m = 4 ∨ m = 6 ∨ m = 9 ∨ m = 11 then 30
  else 31

/-- Model of `datetime.strptime(s, "%d.%m.%Y")`: day and month are one
or two digits, the year exactly four digits, and the triple must be a
real calendar date.  A valid date is encoded as the naturally ordered
code `y * 10000 + m * 100 + d`; a malformed string yields `none`
(Python raises `ValueError`). -/
def parseDate (s : String) : Option Nat :=
  match splitDots s with
  | [ds, ms, ys] =>
    if ds.length = 0 ∨ 2 < ds.length then none
    else if ms.length = 0 ∨ 2 < ms.length then none
    else if ys.length ≠ 4 then none
    else
      match digits? ds, digits? ms, digits? ys with
      | some d, some m, some y =>
        if 1 ≤ d ∧ 1 ≤ m ∧ m ≤ 12 ∧ 1 ≤ y ∧ d ≤ daysInMonth y m then
          some (y * 10000 + m * 100 + d)
        else none
      | _, _, _ => none
  | _ => none

/-- Core of `add_to_history` on the dict itself: if the key is absent a
fresh singleton binding is appended at the end (CPython dicts append
new keys in insertion order), otherwise the entry is appended to the
existing list unless it is already present. -/
def histAdd : HistMap → String → HistoryEntry → HistMap
  | [], s, e => [(s, [e])]
  | (k, recs) :: rest, s, e =>
    if k = s then (k, if e ∈ recs then recs else recs ++ [e]) :: rest
    else (k, recs) :: histAdd rest s e

/-- Handler `add_to_history(serial_number, assignment, date)` (app.py:226):
returns the ledger unchanged when serial or assignment is empty
(falsy), otherwise inserts via `histAdd`. -/
def add_to_history (h : HistMap) (serial_number assignment date : String) : HistMap :=
  if serial_number = "" ∨ assignment = "" then h
  else histAdd h serial_number ⟨assignment, date⟩

/-- Handler `get_history_for_equipment` (app.py:236): dict get with default empty list. -/
def get_history_for_equipment (h : HistMap) (serial_number : String) : List HistoryEntry :=
  match h.find? (fun p => p.1 = serial_number) with
  | some p => p.2
  | none => []

/-- Ledger part of `delete_history_record` (app.py:1136): if the serial
is a key, drop every entry whose assignment and date both match; when
the filtered list is empty the key itself is deleted. -/
def delete_history_record_hist : HistMap → String → String → String → HistMap
  | [], _, _, _ => []
  | (k, recs) :: rest, serial, assignment, date =>
    if k = serial then
      if (recs.filter (fun r => ¬(r.assignment = assignment ∧ r.date = date))).isEmpty
      then rest
      else (k, recs.filter (fun r => ¬(r.assignment = assignment ∧ r.date = date))) :: rest
    else (k, recs) :: delete_history_record_hist rest serial assignment date

/-- Rewrite one history entry during an employee rename. -/
def renameEntry (old new : String) (e : HistoryEntry) : HistoryEntry :=
  if e.assignment = old then ⟨new, e.date⟩ else e

/-- Ledger part of the employee rename (`edit_selected_employee.save_edit`,
app.py:588): every entry of every serial whose assignment equals `old`
is rewritten to `new`. -/
def renameHist (h : HistMap) (old new : String) : HistMap :=
  h.map (fun p => (p.1, p.2.map (renameEntry old new)))

/-- Replace the first occurrence of `old` in the roster
(`self.employees_list[self.employees_list.index(old_name)] = new_name`). -/
def replaceFirst : List String → String → String → List String
  | [], _, _ => []
  | x :: xs, old, new => if x = old then new :: xs else x :: replaceFirst xs old new

/-- Handler `edit_selected_employee.save_edit` (app.py:576): reject an empty new
name; reject a new name that differs from the old one but already
exists in the roster; `index(old_name)` raises before any mutation when
`old` is not in the roster (state unchanged); otherwise rename the
roster entry, every matching inventory assignment and every matching
history entry. -/
def rename_employee (st : AppState) (old newRaw : String) : AppState :=
  let new := strip newRaw
  if new = "" then st
  else if new ≠ old ∧ new ∈ st.employees then st
  else if old ∈ st.employees then
    { inventory := st.inventory.map
        (fun r => if r.assignment = old then { r with assignment := new } else r)
      history := renameHist st.history old new
      employees := replaceFirst st.employees old new
      equipment_types := st.equipment_types }
  else st

/-- Handler `add_employee` (app.py:158): strip, reject empty or already present,
otherwise append to the roster. -/
def add_employee (st : AppState) (nameRaw : String) : AppState :=
  let name := strip nameRaw
  if name = "" then st
  else if name ∈ st.employees then st
  else { st with employees := st.employees ++ [name] }

/-- Handlers `delete_employee` (app.py:169) and `delete_selected_employee`
(app.py:605): an empty name is a no-op; a name used as the current
`assignment` of any inventory record is rejected with an error modal;
otherwise the deletion happens only when the user confirms.  The
returned boolean is the function's Python return value (deleted or
not). -/
def delete_employee (st : AppState) (name : String) (confirm : Bool) : Bool × AppState :=
  if name = "" then (false, st)
  else if st.inventory.any (fun r => r.assignment = name) then (false, st)
  else if confirm then (true, { st with employees := st.employees.erase name })
  else (false, st)

/-- Handler `add_equipment_type` (app.py:928): strip, reject empty or already
present, otherwise append to the catalog. -/
def add_equipment_type (st : AppState) (nameRaw : String) : AppState :=
  let name := strip nameRaw
  if name = "" then st
  else if name ∈ st.equipment_types then st
  else { st with equipment_types := st.equipment_types ++ [name] }

/-- Handler `add_equipment` (app.py:1651): each form field is stripped; type and
serial are mandatory, the type must exist in the catalog; on success the
record is appended to the inventory and `add_to_history` is called with
its serial, assignment and date.  No duplicate-serial check exists. -/
def add_equipment (st : AppState)
    (typeRaw modelRaw serialRaw assignmentRaw dateRaw commentsRaw created : String) :
    AppState :=
  let t := strip typeRaw
  let m := strip modelRaw
  let sn := strip serialRaw
  let a := strip assignmentRaw
  let d := strip dateRaw
  let c := strip commentsRaw
  if t = "" ∨ sn = "" then st
  else if t ∉ st.equipment_types then st
  else
    { st with
      inventory := st.inventory ++ [⟨t, m, sn, a, d, c, created⟩]
      history := add_to_history st.history sn a d }

/-- Update the first inventory record carrying the serial (Python
mutates `target_item`, the first match found). -/
def updateFirst : List EquipmentRecord → String → String → String → List EquipmentRecord
  | [], _, _, _ => []
  | r :: rs, sn, emp, d =>
    if r.serial_number = sn then { r with assignment := emp, date := d } :: rs
    else r :: updateFirst rs sn emp d

/-- Handler `open_transfer_dialog.confirm_transfer` (app.py:766) combined with
the record lookup of `transfer_selected_item` (app.py:709): abort when
no record carries the serial, when the stripped employee or date is
empty, or when the date does not parse as DD.MM.YYYY; otherwise update
the live record's assignment and date and append to the history. -/
def confirm_transfer (st : AppState) (serial empRaw dateRaw : String) : AppState :=
  let emp := strip empRaw
  let d := strip dateRaw
  match st.inventory.find? (fun r => r.serial_number = serial) with
  | none => st
  | some _ =>
    if emp = "" then st
    else if d = "" then st
    else
      match parseDate d with
      | none => st
      | some _ =>
        { st with
          inventory := updateFirst st.inventory serial emp d
          history := add_to_history st.history serial emp d }

/-- Remove the first inventory record carrying the serial. -/
def removeFirst : List EquipmentRecord → String → List EquipmentRecord
  | [], _ => []
  | r :: rs, sn => if r.serial_number = sn then rs else r :: removeFirst rs sn

/-- Handler `delete_selected_item` (app.py:1618) for one selected row: an empty
serial is skipped, otherwise the first matching inventory record is
deleted.  The history ledger is not touched by this handler. -/
def delete_selected_item (st : AppState) (serial : String) : AppState :=
  if serial = "" then st
  else { st with inventory := removeFirst st.inventory serial }

/-- Handler `delete_history_record` (app.py:1136) at state level. -/
def delete_history_record (st : AppState) (serial assignment date : String) : AppState :=
  { st with history := delete_history_record_hist st.history serial assignment date }

/-- Equipment-type lookup of `generate_transfers_report` (app.py:1452):
the type of the first inventory record carrying the serial, defaulting
to a dash placeholder when the serial is no longer in the inventory. -/
def findType : List EquipmentRecord → String → String
  | [], _ => "-"
  | r :: rs, serial =>
    if r.serial_number = serial then r.equipment_type else findType rs serial

/-- Ordering used by `sorted(valid_records, key=strptime(...))`: compare
the precomputed date keys. -/
def recLe (a b : HistoryEntry × Nat) : Prop := a.2 ≤ b.2

instance : DecidableRel recLe := fun a b => inferInstanceAs (Decidable (a.2 ≤ b.2))

instance : IsTotal (HistoryEntry × Nat) recLe := ⟨fun a b => Nat.le_total a.2 b.2⟩

instance : IsTrans (HistoryEntry × Nat) recLe := ⟨fun _ _ _ hab hbc => Nat.le_trans hab hbc⟩

/-- Key precomputation of Python's `sorted(..., key=...)`: CPython
evaluates the key for every element in list order before comparing, and
the first malformed date raises `ValueError` (modelled as `none`). -/
def parseAll : List HistoryEntry → Option (List (HistoryEntry × Nat))
  | [] => some []
  | r :: rs =>
    match parseDate r.date with
    | none => none
    | some n =>
      match parseAll rs with
      | none => none
      | some ks => some ((r, n) :: ks)

/-- Emission test of the report loop body (app.py:1441): re-parse the
current record's date (skipping the pair on failure), skip pairs whose
employees coincide, and emit a transfer when the date falls inside the
inclusive window. -/
def emitPair (ftype serial : String) (startN endN : Nat)
    (p c : HistoryEntry × Nat) : Option Transfer :=
  match parseDate c.1.date with
  | none => none
  | some tn =>
    if p.1.assignment = c.1.assignment then none
    else if startN ≤ tn ∧ tn ≤ endN then
      some ⟨ftype, serial, p.1.assignment, c.1.assignment, c.1.date⟩
    else none

/-- Walk of consecutive pairs of the date-sorted records
(app.py:1441-1463). -/
def walk (ftype serial : String) (startN endN : Nat) :
    List (HistoryEntry × Nat) → List Transfer
  | a :: b :: rest =>
    (emitPair ftype serial startN endN a b).toList ++ walk ftype serial startN endN (b :: rest)
  | _ => []

/-- Records of one serial kept by the report: non-empty (truthy)
assignment and date strings (app.py:1434). -/
def validRecords (recs : List HistoryEntry) : List HistoryEntry :=
  recs.filter (fun r => decide (r.assignment ≠ "") && decide (r.date ≠ ""))

/-- Per-serial computation of `generate_transfers_report`
(app.py:1433-1463): keep records with non-empty assignment and date,
skip the serial when fewer than two remain, otherwise stable-sort by
the parsed date (a malformed date among the kept records raises out of
the unguarded sort key, modelled as `none`) and walk consecutive
pairs. -/
def serialReport (inv : List EquipmentRecord) (serial : String)
    (recs : List HistoryEntry) (startN endN : Nat) : Option (List Transfer) :=
  if (validRecords recs).length < 2 then some []
  else
    match parseAll (validRecords recs) with
    | none => none
    | some keyed =>
      some (walk (findType inv serial) serial startN endN (List.insertionSort recLe keyed))

/-- Report loop of `generate_transfers_report` (app.py:1432-1463) over
the whole ledger, accumulating per-serial transfers in dict order.  The
start and end arguments are the parsed datetimes of the validated
period inputs; `none` models the `ValueError` escaping the handler from
the unguarded sort key. -/
def generate_transfers_report (inv : List EquipmentRecord) (hist : HistMap)
    (startN endN : Nat) : Option (List Transfer) :=
  match hist with
  | [] => some []
  | (serial, recs) :: rest =>
    match serialReport inv serial recs startN endN with
    | none => none
    | some ts =>
      match generate_transfers_report inv rest startN endN with
      | none => none
      | some ts' => some (ts ++ ts')

/-- Date key of an emitted transfer (its parsed date). -/
def dKey (t : Transfer) : Nat := (parseDate t.date).getD 0

/-- Transfers ordered by parsed date. -/
def dateLE (t u : Transfer) : Prop := dKey t ≤ dKey u

instance : DecidableRel dateLE := fun t u => inferInstanceAs (Decidable (dKey t ≤ dKey u))

/-- Uniqueness invariant of the history ledger: for every serial the
entry list holds no duplicate entry (entries are exactly their
assignment-date pair). -/
def histUnique (h : HistMap) : Prop := ∀ p ∈ h, p.2.Nodup

instance (h : HistMap) : Decidable (histUnique h) :=
  inferInstanceAs (Decidable (∀ p ∈ h, p.2.Nodup))

/-- Every bound serial key maps to a non-empty entry list. -/
def histKeysNonEmpty (h : HistMap) : Prop := ∀ p ∈ h, p.2 ≠ []

instance (h : HistMap) : Decidable (histKeysNonEmpty h) :=
  inferInstanceAs (Decidable (∀ p ∈ h, p.2 ≠ []))

/-- One user-level mutating operation of the application, among the
operations named by the specification's reachability claim:
`add_equipment`, the transfer action (which is the application's
`add_to_history` path), the employee rename, and history-record
deletion.  The transfer's employee is restricted to the roster because
the transfer dialog's combobox is read-only over `employees_list`, and
a history row can only be deleted if it is actually displayed, i.e.
present in the ledger. -/
inductive Step : AppState → AppState → Prop
  | addEq (st : AppState) (t m sn a d c cd : String) :
      Step st (add_equipment st t m sn a d c cd)
  | transfer (st : AppState) (sn emp d : String) (hemp : emp ∈ st.employees) :
      Step st (confirm_transfer st sn emp d)
  | rename (st : AppState) (old new : String) :
      Step st (rename_employee st old new)
  | delHist (st : AppState) (sn a d : String)
      (hrow : ∃ recs, (sn, recs) ∈ st.history ∧ (⟨a, d⟩ : HistoryEntry) ∈ recs) :
      Step st (delete_history_record st sn a d)

/-- States reachable from a fresh data directory whose roster and type
catalog were loaded from disk: empty inventory and empty ledger. -/
def initState (es ts : List String) : AppState := ⟨[], [], es, ts⟩

/-! ## Claim C9: deleting an equipment record never touches the ledger -/

/-- Claim C9 (confirmed).  Deleting an equipment record from the
inventory leaves the history ledger completely unchanged: for every
serial number, including the deleted record's own serial, the history
entries before and after the deletion are identical, so the ledger can
keep referencing serial numbers no longer present in the inventory. -/
theorem C9_delete_item_preserves_history (st : AppState) (serial : String) :
    (delete_selected_item st serial).history = st.history ∧
    ∀ s : String,
      get_history_for_equipment (delete_selected_item st serial).history s =
        get_history_for_equipment st.history s := by
  have h : (delete_selected_item st serial).history = st.history := by
    unfold delete_selected_item
    split <;> rfl
  exact ⟨h, fun s => by rw [h]⟩

/-! ## Claim C3: malformed history dates crash the transfers report -/

/-- Claim C3 (code bug).  The specification says malformed dates are
tolerated by the ledger logic and merely excluded, with no exception
escaping.  The sort key of `generate_transfers_report` (app.py:1439)
parses each kept record's date without a guard, although the very same
parse is guarded by try/except six lines below (app.py:1445-1448), so a
serial holding at least two records with non-empty assignment and date,
one of them malformed ("31.13.2024" has no thirteenth month), raises
`ValueError` out of the handler: the computation aborts (`none`)
instead of excluding the entry. -/
theorem C3_malformed_date_crashes_report :
    "31.13.2024" ≠ "" ∧
    parseDate "31.13.2024" = none ∧
    generate_transfers_report []
      [("SN1", [⟨"A", "01.01.2024"⟩, ⟨"B", "31.13.2024"⟩])] 20240101 20241231 = none := by
  refine ⟨by decide, by decide, ?_⟩
  decide

/-! ## Claim C8: duplicate serial numbers are not rejected -/

/-- Claim C8 counterexample.  With a record of serial "SN1" already in
the inventory, `add_equipment` on a second record with the same serial
does not abort: the state changes and the inventory ends with two
records both carrying "SN1". -/
theorem C8_counterexample :
    (add_equipment
        ⟨[⟨"T", "M", "SN1", "A", "01.01.2024", "", ""⟩], [], [], ["T"]⟩
        "T" "M2" "SN1" "B" "02.01.2024" "" "").inventory =
      [⟨"T", "M", "SN1", "A", "01.01.2024", "", ""⟩,
       ⟨"T", "M2", "SN1", "B", "02.01.2024", "", ""⟩] ∧
    add_equipment
        ⟨[⟨"T", "M", "SN1", "A", "01.01.2024", "", ""⟩], [], [], ["T"]⟩
        "T" "M2" "SN1" "B" "02.01.2024" "" "" ≠
      ⟨[⟨"T", "M", "SN1", "A", "01.01.2024", "", ""⟩], [], [], ["T"]⟩ := by
  refine ⟨by decide, by decide⟩

/-- Claim C8 as amended.  In src/app.py `add_equipment` validates only
that the stripped type and serial are non-empty and that the type
exists in the catalog; a duplicate serial number is not a validation
error, and the new record is appended to the inventory (with the
corresponding history insertion) even when its serial equals the serial
of an existing record. -/
theorem C8_amended (st : AppState) (t m sn a d c cd : String)
    (ht : strip t ≠ "") (hsn : strip sn ≠ "") (hmem : strip t ∈ st.equipment_types) :
    (add_equipment st t m sn a d c cd).inventory =
      st.inventory ++ [⟨strip t, strip m, strip sn, strip a, strip d, strip c, cd⟩] ∧
    (add_equipment st t m sn a d c cd).history =
      add_to_history st.history (strip sn) (strip a) (strip d) := by
  unfold add_equipment
  rw [if_neg (by push_neg; exact ⟨ht, hsn⟩), if_neg (by simp [hmem])]
  exact ⟨rfl, rfl⟩

/-- Witness for C8 as amended, on a state that already holds a record
with the same serial number. -/
theorem C8_amended_witness :
    strip "T" ≠ "" ∧ strip "SN1" ≠ "" ∧
    strip "T" ∈
      (⟨[⟨"T", "M", "SN1", "A", "01.01.2024", "", ""⟩], [], [], ["T"]⟩ : AppState).equipment_types ∧
    ((add_equipment ⟨[⟨"T", "M", "SN1", "A", "01.01.2024", "", ""⟩], [], [], ["T"]⟩
        "T" "M2" "SN1" "B" "02.01.2024" "" "").inventory =
      (⟨[⟨"T", "M", "SN1", "A", "01.01.2024", "", ""⟩], [], [], ["T"]⟩ : AppState).inventory ++
        [⟨"T", "M2", "SN1", "B", "02.01.2024", "", ""⟩] ∧
    (add_equipment ⟨[⟨"T", "M", "SN1", "A", "01.01.2024", "", ""⟩], [], [], ["T"]⟩
        "T" "M2" "SN1" "B" "02.01.2024" "" "").history =
      add_to_history
        (⟨[⟨"T", "M", "SN1", "A", "01.01.2024", "", ""⟩], [], [], ["T"]⟩ : AppState).history
        "SN1" "B" "02.01.2024") := by
  refine ⟨by decide, by decide, by decide, ?_⟩
  have h := C8_amended ⟨[⟨"T", "M", "SN1", "A", "01.01.2024", "", ""⟩], [], [], ["T"]⟩
    "T" "M2" "SN1" "B" "02.01.2024" "" "" (by decide) (by decide) (by decide)
  simpa using h

/-! ## Claim C6: the employee rename erases the old name everywhere -/

/-- Claim C6 counterexample.  The claim deems a rename valid whenever
the new name is non-empty and, when it differs from the old one, absent
from the roster; so renaming "A" to "A" is valid.  The code accepts it
and leaves every assignment equal to "A", contradicting the claimed
postcondition that no assignment equals the old name. -/
theorem C6_counterexample :
    rename_employee
        ⟨[⟨"T", "M", "SN1", "A", "01.01.2024", "", ""⟩],
         [("SN1", [⟨"A", "01.01.2024"⟩])], ["A"], ["T"]⟩ "A" "A" =
      ⟨[⟨"T", "M", "SN1", "A", "01.01.2024", "", ""⟩],
       [("SN1", [⟨"A", "01.01.2024"⟩])], ["A"], ["T"]⟩ ∧
    ¬ (∀ r ∈ (rename_employee
        ⟨[⟨"T", "M", "SN1", "A", "01.01.2024", "", ""⟩],
         [("SN1", [⟨"A", "01.01.2024"⟩])], ["A"], ["T"]⟩ "A" "A").inventory,
        r.assignment ≠ "A") := by
  exact ⟨by decide, by decide⟩

/-- Claim C6 as amended: the rename must also actually change the name
(`new` different from `old`).  Under that validity condition, after
`rename_employee` no inventory assignment and no history entry equals
the old name, and each previously matching field now carries the new
name (the inventory and the ledger are exactly their pointwise
renamings). -/
theorem C6_amended (st : AppState) (old new : String)
    (hq : strip new = new) (hne : new ≠ "") (hdiff : new ≠ old)
    (hfresh : new ∉ st.employees) (hold : old ∈ st.employees) :
    (∀ r ∈ (rename_employee st old new).inventory, r.assignment ≠ old) ∧
    (∀ p ∈ (rename_employee st old new).history, ∀ e ∈ p.2, e.assignment ≠ old) ∧
    (rename_employee st old new).inventory =
      st.inventory.map
        (fun r => if r.assignment = old then { r with assignment := new } else r) ∧
    (rename_employee st old new).history = renameHist st.history old new := by
  have hrw : rename_employee st old new =
      { inventory := st.inventory.map
          (fun r => if r.assignment = old then { r with assignment := new } else r)
        history := renameHist st.history old new
        employees := replaceFirst st.employees old new
        equipment_types := st.equipment_types } := by
    unfold rename_employee
    rw [hq, if_neg hne, if_neg (by intro hc; exact hfresh hc.2), if_pos hold]
  refine ⟨?_, ?_, by rw [hrw], by rw [hrw]⟩
  · intro r hr
    rw [hrw] at hr
    rcases List.mem_map.1 hr with ⟨x, _, hx⟩
    subst hx
    by_cases hxa : x.assignment = old
    · simp [hxa, hdiff]
    · simp [hxa]
  · intro p hp e he
    rw [hrw] at hp
    rcases List.mem_map.1 hp with ⟨q, _, hq'⟩
    subst hq'
    rcases List.mem_map.1 he with ⟨e₀, _, he₀⟩
    subst he₀
    unfold renameEntry
    by_cases hea : e₀.assignment = old
    · simp [hea, hdiff]
    · simp [hea]

/-- Witness for C6 as amended: renaming the rostered employee "A" to
the fresh non-empty name "B" in a populated state. -/
theorem C6_amended_witness :
    strip "B" = "B" ∧ ("B" : String) ≠ "" ∧ ("B" : String) ≠ "A" ∧
    "B" ∉ (⟨[⟨"T", "M", "SN1", "A", "01.01.2024", "", ""⟩],
            [("SN1", [⟨"A", "01.01.2024"⟩])], ["A"], ["T"]⟩ : AppState).employees ∧
    "A" ∈ (⟨[⟨"T", "M", "SN1", "A", "01.01.2024", "", ""⟩],
            [("SN1", [⟨"A", "01.01.2024"⟩])], ["A"], ["T"]⟩ : AppState).employees ∧
    (∀ r ∈ (rename_employee
        ⟨[⟨"T", "M", "SN1", "A", "01.01.2024", "", ""⟩],
         [("SN1", [⟨"A", "01.01.2024"⟩])], ["A"], ["T"]⟩ "A" "B").inventory,
      r.assignment ≠ "A") := by
  refine ⟨by decide, by decide, by decide, by decide, by decide, ?_⟩
  exact (C6_amended
    ⟨[⟨"T", "M", "SN1", "A", "01.01.2024", "", ""⟩],
     [("SN1", [⟨"A", "01.01.2024"⟩])], ["A"], ["T"]⟩ "A" "B"
    (by decide) (by decide) (by decide) (by decide) (by decide)).1

/-! ## Claim C7: employee deletion blocked only by live assignments -/

/-- Claim C7 (confirmed).  For a non-empty rostered employee name and a
confirming user, `delete_employee` refuses (and leaves the whole state
unchanged) exactly when some inventory record's current assignment
equals the name; names appearing only in history entries do not block
the deletion, which then removes the name from the roster while leaving
inventory and ledger untouched. -/
theorem C7_delete_employee (st : AppState) (name : String)
    (hn : name ≠ "") (_hmem : name ∈ st.employees) (hnd : st.employees.Nodup) :
    ((delete_employee st name true).1 = false ↔ ∃ r ∈ st.inventory, r.assignment = name) ∧
    ((delete_employee st name true).1 = false → (delete_employee st name true).2 = st) ∧
    ((∀ r ∈ st.inventory, r.assignment ≠ name) →
      (delete_employee st name true).1 = true ∧
      name ∉ (delete_employee st name true).2.employees ∧
      (delete_employee st name true).2.inventory = st.inventory ∧
      (delete_employee st name true).2.history = st.history) := by
  unfold delete_employee
  rw [if_neg hn]
  by_cases hu : st.inventory.any (fun r => r.assignment = name)
  · rw [if_pos hu]
    refine ⟨?_, fun _ => rfl, ?_⟩
    · simp only [List.any_eq_true, decide_eq_true_eq] at hu
      simpa using hu
    · intro hnone
      simp only [List.any_eq_true, decide_eq_true_eq] at hu
      rcases hu with ⟨r, hr, hra⟩
      exact absurd hra (hnone r hr)
  · rw [if_neg hu, if_pos rfl]
    refine ⟨?_, ?_, ?_⟩
    · simp only [List.any_eq_true, decide_eq_true_eq] at hu
      constructor
      · intro hfalse; cases hfalse
      · intro hex; exact absurd hex (by simpa using hu)
    · intro hfalse; cases hfalse
    · intro _
      refine ⟨rfl, ?_, rfl, rfl⟩
      intro hin
      exact (List.Nodup.mem_erase_iff hnd).1 hin |>.1 rfl

/-- Witness for C7: "Ivanov" appears only in the history ledger while
the record's current assignment is "Petrov", and the confirmed deletion
of "Ivanov" succeeds. -/
theorem C7_witness :
    ("Ivanov" : String) ≠ "" ∧
    "Ivanov" ∈ (⟨[⟨"T", "M", "SN1", "Petrov", "15.06.2024", "", ""⟩],
                 [("SN1", [⟨"Ivanov", "01.01.2024"⟩, ⟨"Petrov", "15.06.2024"⟩])],
                 ["Ivanov", "Petrov"], ["T"]⟩ : AppState).employees ∧
    (⟨[⟨"T", "M", "SN1", "Petrov", "15.06.2024", "", ""⟩],
      [("SN1", [⟨"Ivanov", "01.01.2024"⟩, ⟨"Petrov", "15.06.2024"⟩])],
      ["Ivanov", "Petrov"], ["T"]⟩ : AppState).employees.Nodup ∧
    ((delete_employee ⟨[⟨"T", "M", "SN1", "Petrov", "15.06.2024", "", ""⟩],
        [("SN1", [⟨"Ivanov", "01.01.2024"⟩, ⟨"Petrov", "15.06.2024"⟩])],
        ["Ivanov", "Petrov"], ["T"]⟩ "Ivanov" true).1 = true ∧
      "Ivanov" ∉ (delete_employee ⟨[⟨"T", "M", "SN1", "Petrov", "15.06.2024", "", ""⟩],
        [("SN1", [⟨"Ivanov", "01.01.2024"⟩, ⟨"Petrov", "15.06.2024"⟩])],
        ["Ivanov", "Petrov"], ["T"]⟩ "Ivanov" true).2.employees ∧
      (delete_employee ⟨[⟨"T", "M", "SN1", "Petrov", "15.06.2024", "", ""⟩],
        [("SN1", [⟨"Ivanov", "01.01.2024"⟩, ⟨"Petrov", "15.06.2024"⟩])],
        ["Ivanov", "Petrov"], ["T"]⟩ "Ivanov" true).2.inventory =
        (⟨[⟨"T", "M", "SN1", "Petrov", "15.06.2024", "", ""⟩],
          [("SN1", [⟨"Ivanov", "01.01.2024"⟩, ⟨"Petrov", "15.06.2024"⟩])],
          ["Ivanov", "Petrov"], ["T"]⟩ : AppState).inventory ∧
      (delete_employee ⟨[⟨"T", "M", "SN1", "Petrov", "15.06.2024", "", ""⟩],
        [("SN1", [⟨"Ivanov", "01.01.2024"⟩, ⟨"Petrov", "15.06.2024"⟩])],
        ["Ivanov", "Petrov"], ["T"]⟩ "Ivanov" true).2.history =
        (⟨[⟨"T", "M", "SN1", "Petrov", "15.06.2024", "", ""⟩],
          [("SN1", [⟨"Ivanov", "01.01.2024"⟩, ⟨"Petrov", "15.06.2024"⟩])],
          ["Ivanov", "Petrov"], ["T"]⟩ : AppState).history) := by
  refine ⟨by decide, by decide, by decide, ?_⟩
  exact (C7_delete_employee
    ⟨[⟨"T", "M", "SN1", "Petrov", "15.06.2024", "", ""⟩],
     [("SN1", [⟨"Ivanov", "01.01.2024"⟩, ⟨"Petrov", "15.06.2024"⟩])],
     ["Ivanov", "Petrov"], ["T"]⟩ "Ivanov"
    (by decide) (by decide) (by decide)).2.2 (by decide)

/-! ## Claim C10: bound history keys always hold a non-empty list -/

/-- Inserting into the ledger keeps every bound key's list non-empty. -/
theorem histAdd_nonempty (s : String) (e : HistoryEntry) :
    ∀ h : HistMap, (∀ p ∈ h, p.2 ≠ []) → ∀ p ∈ histAdd h s e, p.2 ≠ [] := by
  intro h
  induction h with
  | nil =>
    intro _ p hp
    simp only [histAdd, List.mem_singleton] at hp
    subst hp
    simp
  | cons q rest ih =>
    intro hne p hp
    obtain ⟨k, recs⟩ := q
    unfold histAdd at hp
    split at hp
    · rcases List.mem_cons.1 hp with h1 | h2
      · subst h1
        by_cases he : e ∈ recs
        · simpa [he] using hne (k, recs) (List.mem_cons_self _ _)
        · simp [he]
      · exact hne p (List.mem_cons_of_mem _ h2)
    · rcases List.mem_cons.1 hp with h1 | h2
      · subst h1
        exact hne (k, recs) (List.mem_cons_self _ _)
      · exact ih (fun q hq => hne q (List.mem_cons_of_mem _ hq)) p h2

/-- Deleting history rows drops a key rather than leaving it empty. -/
theorem delete_hist_nonempty (serial a d : String) :
    ∀ h : HistMap, (∀ p ∈ h, p.2 ≠ []) →
      ∀ p ∈ delete_history_record_hist h serial a d, p.2 ≠ [] := by
  intro h
  induction h with
  | nil =>
    intro _ p hp
    simp [delete_history_record_hist] at hp
  | cons q rest ih =>
    intro hne p hp
    obtain ⟨k, recs⟩ := q
    unfold delete_history_record_hist at hp
    split at hp
    · split at hp
      · exact hne p (List.mem_cons_of_mem _ hp)
      · next hfull =>
        rcases List.mem_cons.1 hp with h1 | h2
        · subst h1
          intro hnil
          exact hfull (List.isEmpty_iff.2 hnil)
        · exact hne p (List.mem_cons_of_mem _ h2)
    · rcases List.mem_cons.1 hp with h1 | h2
      · subst h1
        exact hne (k, recs) (List.mem_cons_self _ _)
      · exact ih (fun q hq => hne q (List.mem_cons_of_mem _ hq)) p h2

/-- Claim C10 (confirmed).  Starting from a ledger whose bound keys all
map to non-empty lists, each ledger-mutating path preserves that shape:
`add_to_history` only creates a key together with its first entry,
`delete_history_record` deletes the key whenever the filtered list
would be empty, and the rename rewrites entries in place without
changing list lengths. -/
theorem C10_keys_nonempty (h : HistMap) (hne : histKeysNonEmpty h) :
    (∀ s a d, histKeysNonEmpty (add_to_history h s a d)) ∧
    (∀ s a d, histKeysNonEmpty (delete_history_record_hist h s a d)) ∧
    (∀ old new, histKeysNonEmpty (renameHist h old new)) := by
  refine ⟨?_, ?_, ?_⟩
  · intro s a d
    unfold add_to_history
    split
    · exact hne
    · exact histAdd_nonempty s ⟨a, d⟩ h hne
  · intro s a d
    exact delete_hist_nonempty s a d h hne
  · intro old new p hp
    rcases List.mem_map.1 hp with ⟨q, hq, hq'⟩
    subst hq'
    simpa [List.map_eq_nil_iff] using hne q hq

/-- Witness for C10 on a one-key ledger. -/
theorem C10_witness :
    histKeysNonEmpty [("SN1", [⟨"A", "01.01.2024"⟩])] ∧
    histKeysNonEmpty (add_to_history [("SN1", [⟨"A", "01.01.2024"⟩])] "SN2" "B" "02.01.2024") ∧
    histKeysNonEmpty
      (delete_history_record_hist [("SN1", [⟨"A", "01.01.2024"⟩])] "SN1" "A" "01.01.2024") ∧
    histKeysNonEmpty (renameHist [("SN1", [⟨"A", "01.01.2024"⟩])] "A" "B") := by
  have h := C10_keys_nonempty [("SN1", [⟨"A", "01.01.2024"⟩])] (by decide)
  exact ⟨by decide, h.1 "SN2" "B" "02.01.2024", h.2.1 "SN1" "A" "01.01.2024", h.2.2 "A" "B"⟩

/-! ## Claim C2: the live record is not folded into the timeline -/

/-- Claim C2 counterexample.  The live record of serial "SN1" is
assigned to "Ivanov" with the validly parsing date "01.01.2024", the
ledger holds only the later entry for "Petrov", and both dates lie in
the requested window; the claim requires the Ivanov-to-Petrov transfer
to be detected, but the report is empty because
`generate_transfers_report` reads the ledger alone and skips any serial
with fewer than two ledger entries. -/
theorem C2_counterexample :
    parseDate "01.01.2024" = some 20240101 ∧
    generate_transfers_report
      [⟨"T", "M", "SN1", "Ivanov", "01.01.2024", "", ""⟩]
      [("SN1", [⟨"Petrov", "15.06.2024"⟩])] 20240101 20241231 = some [] := by
  exact ⟨by decide, by decide⟩

/-- Lists with equal serial-and-type projections give the same type
lookup. -/
theorem findType_congr :
    ∀ inv₁ inv₂ : List EquipmentRecord,
      inv₁.map (fun r => (r.serial_number, r.equipment_type)) =
        inv₂.map (fun r => (r.serial_number, r.equipment_type)) →
      ∀ sn, findType inv₁ sn = findType inv₂ sn := by
  intro inv₁
  induction inv₁ with
  | nil =>
    intro inv₂ h sn
    cases inv₂ with
    | nil => rfl
    | cons b l₂ => simp at h
  | cons a l ih =>
    intro inv₂ h sn
    cases inv₂ with
    | nil => simp at h
    | cons b l₂ =>
      simp only [List.map_cons, List.cons.injEq] at h
      obtain ⟨hhead, htail⟩ := h
      have hsn : a.serial_number = b.serial_number := congrArg Prod.fst hhead
      have hty : a.equipment_type = b.equipment_type := congrArg Prod.snd hhead
      unfold findType
      rw [hsn, hty]
      split
      · rfl
      · exact ih l₂ htail sn

/-- The per-serial report depends on the inventory only through the
type lookup. -/
theorem serialReport_congr (inv₁ inv₂ : List EquipmentRecord) (serial : String)
    (recs : List HistoryEntry) (s e : Nat)
    (hft : findType inv₁ serial = findType inv₂ serial) :
    serialReport inv₁ serial recs s e = serialReport inv₂ serial recs s e := by
  unfold serialReport
  rw [hft]

/-- Claim C2 as amended.  The transfers report builds each serial's
timeline from the history ledger alone; the live equipment record is
consulted only for its serial number and equipment type (the type
column), so any two inventories agreeing on the serial-to-type
projection, in particular inventories differing arbitrarily in their
`assignment` and `date` fields, produce the identical report. -/
theorem C2_amended (inv₁ inv₂ : List EquipmentRecord) (hist : HistMap) (s e : Nat)
    (hproj : inv₁.map (fun r => (r.serial_number, r.equipment_type)) =
      inv₂.map (fun r => (r.serial_number, r.equipment_type))) :
    generate_transfers_report inv₁ hist s e = generate_transfers_report inv₂ hist s e := by
  induction hist with
  | nil => rfl
  | cons q rest ih =>
    obtain ⟨serial, recs⟩ := q
    unfold generate_transfers_report
    rw [serialReport_congr inv₁ inv₂ serial recs s e (findType_congr inv₁ inv₂ hproj serial), ih]

/-- Witness for C2 as amended: changing the live record's assignment
and date does not change the report. -/
theorem C2_amended_witness :
    ([⟨"T", "M", "SN1", "Ivanov", "01.01.2024", "", ""⟩] : List EquipmentRecord).map
        (fun r => (r.serial_number, r.equipment_type)) =
      ([⟨"T", "M", "SN1", "Sidorov", "31.12.2030", "x", "y"⟩] : List EquipmentRecord).map
        (fun r => (r.serial_number, r.equipment_type)) ∧
    generate_transfers_report [⟨"T", "M", "SN1", "Ivanov", "01.01.2024", "", ""⟩]
        [("SN1", [⟨"Ivanov", "01.01.2024"⟩, ⟨"Petrov", "15.06.2024"⟩])] 20240101 20241231 =
      generate_transfers_report [⟨"T", "M", "SN1", "Sidorov", "31.12.2030", "x", "y"⟩]
        [("SN1", [⟨"Ivanov", "01.01.2024"⟩, ⟨"Petrov", "15.06.2024"⟩])] 20240101 20241231 := by
  refine ⟨by decide, ?_⟩
  exact C2_amended [⟨"T", "M", "SN1", "Ivanov", "01.01.2024", "", ""⟩]
    [⟨"T", "M", "SN1", "Sidorov", "31.12.2030", "x", "y"⟩]
    [("SN1", [⟨"Ivanov", "01.01.2024"⟩, ⟨"Petrov", "15.06.2024"⟩])] 20240101 20241231 (by decide)

/-! ## Claim C1: uniqueness of (assignment, date) pairs per serial -/

/-- Claim C1 counterexample.  From a fresh startup state whose roster
holds "old" and whose catalog holds the type "T", three genuine
application operations reach a state violating the claimed invariant:
`add_equipment` records serial "SN1" for the free-typed assignment
"new" (creating history entry (new, 01.01.2024)), the transfer dialog
hands the item to the rostered employee "old" on the same date
(appending (old, 01.01.2024)), and the employee rename of "old" to
"new" is accepted (the new name is absent from the roster) and rewrites
the second entry, leaving the serial's ledger with two identical
(new, 01.01.2024) entries. -/
theorem C1_counterexample :
    Relation.ReflTransGen Step (initState ["old"] ["T"])
      (rename_employee
        (confirm_transfer
          (add_equipment (initState ["old"] ["T"]) "T" "M" "SN1" "new" "01.01.2024" "" "")
          "SN1" "old" "01.01.2024")
        "old" "new") ∧
    ¬ histUnique
      (rename_employee
        (confirm_transfer
          (add_equipment (initState ["old"] ["T"]) "T" "M" "SN1" "new" "01.01.2024" "" "")
          "SN1" "old" "01.01.2024")
        "old" "new").history := by
  constructor
  · exact Relation.ReflTransGen.head (Step.addEq _ "T" "M" "SN1" "new" "01.01.2024" "" "")
      (Relation.ReflTransGen.head (Step.transfer _ "SN1" "old" "01.01.2024" (by decide))
        (Relation.ReflTransGen.single (Step.rename _ "old" "new")))
  · decide

/-- Inserting into a duplicate-free ledger keeps it duplicate-free:
the entry is appended only when absent. -/
theorem histAdd_nodup (s : String) (e : HistoryEntry) :
    ∀ h : HistMap, (∀ p ∈ h, p.2.Nodup) → ∀ p ∈ histAdd h s e, p.2.Nodup := by
  intro h
  induction h with
  | nil =>
    intro _ p hp
    simp only [histAdd, List.mem_singleton] at hp
    subst hp
    simp
  | cons q rest ih =>
    intro hu p hp
    obtain ⟨k, recs⟩ := q
    unfold histAdd at hp
    split at hp
    · rcases List.mem_cons.1 hp with h1 | h2
      · subst h1
        by_cases he : e ∈ recs
        · simpa [he] using hu (k, recs) (List.mem_cons_self _ _)
        · have hrec := hu (k, recs) (List.mem_cons_self _ _)
          simp only [he, if_false]
          simpa [List.nodup_append] using ⟨hrec, he⟩
      · exact hu p (List.mem_cons_of_mem _ h2)
    · rcases List.mem_cons.1 hp with h1 | h2
      · subst h1
        exact hu (k, recs) (List.mem_cons_self _ _)
      · exact ih (fun q hq => hu q (List.mem_cons_of_mem _ hq)) p h2

/-- Resubmitting the identical entry is suppressed: `histAdd` is
idempotent. -/
theorem histAdd_idem (s : String) (e : HistoryEntry) :
    ∀ h : HistMap, histAdd (histAdd h s e) s e = histAdd h s e := by
  intro h
  induction h with
  | nil =>
    show histAdd [(s, [e])] s e = [(s, [e])]
    simp [histAdd]
  | cons q rest ih =>
    obtain ⟨k, recs⟩ := q
    by_cases hk : k = s
    · have he' : e ∈ (if e ∈ recs then recs else recs ++ [e]) := by
        by_cases he : e ∈ recs
        · simp [he]
        · simp [he]
      have h1 : histAdd ((k, recs) :: rest) s e =
          (k, if e ∈ recs then recs else recs ++ [e]) :: rest := by
        simp only [histAdd]
        rw [if_pos hk]
      rw [h1]
      simp only [histAdd]
      rw [if_pos hk, if_pos he']
    · have h1 : histAdd ((k, recs) :: rest) s e = (k, recs) :: histAdd rest s e := by
        simp only [histAdd]
        rw [if_neg hk]
      rw [h1]
      simp only [histAdd]
      rw [if_neg hk, ih]

/-- Deleting history rows from a duplicate-free ledger keeps it
duplicate-free. -/
theorem delete_hist_nodup (serial a d : String) :
    ∀ h : HistMap, (∀ p ∈ h, p.2.Nodup) →
      ∀ p ∈ delete_history_record_hist h serial a d, p.2.Nodup := by
  intro h
  induction h with
  | nil =>
    intro _ p hp
    simp [delete_history_record_hist] at hp
  | cons q rest ih =>
    intro hu p hp
    obtain ⟨k, recs⟩ := q
    unfold delete_history_record_hist at hp
    split at hp
    · split at hp
      · exact hu p (List.mem_cons_of_mem _ hp)
      · rcases List.mem_cons.1 hp with h1 | h2
        · subst h1
          exact List.Nodup.filter _ (hu (k, recs) (List.mem_cons_self _ _))
        · exact hu p (List.mem_cons_of_mem _ h2)
    · rcases List.mem_cons.1 hp with h1 | h2
      · subst h1
        exact hu (k, recs) (List.mem_cons_self _ _)
      · exact ih (fun q hq => hu q (List.mem_cons_of_mem _ hq)) p h2

/-- Claim C1 as amended.  Per-serial (assignment, date) uniqueness is
established and preserved by `add_to_history` (which also absorbs an
exact-duplicate resubmission, second conjunct) and by history-record
deletion; the employee rename, however, preserves it only under the
extra condition that no serial's ledger holds two distinct entries for
`old` and `new` carrying the same date — without that condition the
rename merges such a pair into duplicates, as the counterexample
shows. -/
theorem C1_amended (h : HistMap) (hu : histUnique h) :
    (∀ s a d, histUnique (add_to_history h s a d)) ∧
    (∀ s a d, add_to_history (add_to_history h s a d) s a d = add_to_history h s a d) ∧
    (∀ s a d, histUnique (delete_history_record_hist h s a d)) ∧
    (∀ old new,
      (∀ p ∈ h, ∀ e₁ ∈ p.2, ∀ e₂ ∈ p.2, e₁ ≠ e₂ →
        e₁.assignment = old → e₂.assignment = new → e₁.date ≠ e₂.date) →
      histUnique (renameHist h old new)) := by
  refine ⟨?_, ?_, ?_, ?_⟩
  · intro s a d
    unfold add_to_history
    split
    · exact hu
    · exact histAdd_nodup s ⟨a, d⟩ h hu
  · intro s a d
    unfold add_to_history
    split
    · rfl
    · exact histAdd_idem s ⟨a, d⟩ h
  · intro s a d
    exact delete_hist_nodup s a d h hu
  · intro old new hcond p hp
    rcases List.mem_map.1 hp with ⟨q, hq, hq'⟩
    subst hq'
    refine List.Nodup.map_on ?_ (hu q hq)
    intro x hx y hy hf
    by_contra hxy
    unfold renameEntry at hf
    by_cases hxa : x.assignment = old <;> by_cases hya : y.assignment = old
    · rw [if_pos hxa, if_pos hya] at hf
      injection hf with h1 h2
      apply hxy
      cases x
      cases y
      simp_all
    · rw [if_pos hxa, if_neg hya] at hf
      have hyn : y.assignment = new := by rw [← hf]
      have hyd : y.date = x.date := by rw [← hf]
      exact hcond q hq x hx y hy hxy hxa hyn hyd.symm
    · rw [if_neg hxa, if_pos hya] at hf
      have hxn : x.assignment = new := by rw [hf]
      have hxd : x.date = y.date := by rw [hf]
      exact hcond q hq y hy x hx (Ne.symm hxy) hya hxn hxd.symm
    · rw [if_neg hxa, if_neg hya] at hf
      exact hxy hf

/-- Witness for C1 as amended on a populated two-serial ledger. -/
theorem C1_amended_witness :
    histUnique [("SN1", [⟨"A", "01.01.2024"⟩, ⟨"B", "15.06.2024"⟩])] ∧
    histUnique (add_to_history
      [("SN1", [⟨"A", "01.01.2024"⟩, ⟨"B", "15.06.2024"⟩])] "SN1" "A" "01.01.2024") ∧
    add_to_history (add_to_history
        [("SN1", [⟨"A", "01.01.2024"⟩, ⟨"B", "15.06.2024"⟩])] "SN1" "A" "01.01.2024")
        "SN1" "A" "01.01.2024" =
      add_to_history
        [("SN1", [⟨"A", "01.01.2024"⟩, ⟨"B", "15.06.2024"⟩])] "SN1" "A" "01.01.2024" ∧
    histUnique (delete_history_record_hist
      [("SN1", [⟨"A", "01.01.2024"⟩, ⟨"B", "15.06.2024"⟩])] "SN1" "A" "01.01.2024") ∧
    histUnique (renameHist
      [("SN1", [⟨"A", "01.01.2024"⟩, ⟨"B", "15.06.2024"⟩])] "A" "C") := by
  have h := C1_amended [("SN1", [⟨"A", "01.01.2024"⟩, ⟨"B", "15.06.2024"⟩])] (by decide)
  exact ⟨by decide, h.1 "SN1" "A" "01.01.2024", h.2.1 "SN1" "A" "01.01.2024",
    h.2.2.1 "SN1" "A" "01.01.2024", h.2.2.2 "A" "C" (by decide)⟩

/-! ## Claim C5: enlarging the report window only adds transfers -/

/-- A pair emitted for a window is emitted for any enclosing window. -/
theorem emitPair_mono (ft sn : String) (s e sp ep : Nat) (hs : sp ≤ s) (he : e ≤ ep)
    (p c : HistoryEntry × Nat) (t : Transfer) (h : emitPair ft sn s e p c = some t) :
    emitPair ft sn sp ep p c = some t := by
  unfold emitPair at h ⊢
  cases hpd : parseDate c.1.date with
  | none =>
    rw [hpd] at h
    simp at h
  | some tn =>
    rw [hpd] at h
    dsimp only at h
    by_cases heq : p.1.assignment = c.1.assignment
    · rw [if_pos heq] at h; cases h
    · rw [if_neg heq] at h
      dsimp only
      rw [if_neg heq]
      by_cases hr : s ≤ tn ∧ tn ≤ e
      · rw [if_pos hr] at h
        rw [if_pos ⟨Nat.le_trans hs hr.1, Nat.le_trans hr.2 he⟩]
        exact h
      · rw [if_neg hr] at h; cases h

/-- Walking the same sorted records with an enclosing window keeps
every previously emitted transfer. -/
theorem walk_mono (ft sn : String) (s e sp ep : Nat) (hs : sp ≤ s) (he : e ≤ ep)
    (t : Transfer) : ∀ l : List (HistoryEntry × Nat),
    t ∈ walk ft sn s e l → t ∈ walk ft sn sp ep l
  | [] => by simp [walk]
  | [a] => by simp [walk]
  | a :: b :: rest => by
    intro ht
    unfold walk at ht ⊢
    rcases List.mem_append.1 ht with h1 | h2
    · cases hemit : emitPair ft sn s e a b with
      | none =>
        rw [hemit] at h1
        simp at h1
      | some u =>
        rw [hemit] at h1
        have htu : t = u := by simpa using h1
        subst htu
        rw [emitPair_mono ft sn s e sp ep hs he a b t hemit]
        simp
    · exact List.mem_append_right _ (walk_mono ft sn s e sp ep hs he t (b :: rest) h2)

/-- Per-serial monotonicity of the report in its window. -/
theorem serialReport_mono (inv : List EquipmentRecord) (sn : String)
    (recs : List HistoryEntry) (s e sp ep : Nat) (hs : sp ≤ s) (he : e ≤ ep)
    (ts : List Transfer) (h : serialReport inv sn recs s e = some ts) :
    ∃ ts', serialReport inv sn recs sp ep = some ts' ∧ ∀ t ∈ ts, t ∈ ts' := by
  unfold serialReport at h ⊢
  by_cases hlen : (validRecords recs).length < 2
  · rw [if_pos hlen] at h ⊢
    cases h
    exact ⟨[], rfl, by simp⟩
  · rw [if_neg hlen] at h ⊢
    cases hpa : parseAll (validRecords recs) with
    | none =>
      rw [hpa] at h
      simp at h
    | some keyed =>
      rw [hpa] at h
      dsimp only at h
      cases h
      exact ⟨_, rfl, fun t ht =>
        walk_mono (findType inv sn) sn s e sp ep hs he t (List.insertionSort recLe keyed) ht⟩

/-- Claim C5 (confirmed).  For any state and valid windows, every
transfer reported for a window is reported for any enclosing window:
the window is consulted only in the final inclusion test of each
candidate pair, so enlarging it never removes a transfer. -/
theorem C5_window_monotone (inv : List EquipmentRecord) :
    ∀ (hist : HistMap) (s e sp ep : Nat), sp ≤ s → e ≤ ep → s ≤ e →
      ∀ ts, generate_transfers_report inv hist s e = some ts →
      ∃ ts', generate_transfers_report inv hist sp ep = some ts' ∧ ∀ t ∈ ts, t ∈ ts' := by
  intro hist
  induction hist with
  | nil =>
    intro s e sp ep _ _ _ ts h
    cases h
    exact ⟨[], rfl, by simp⟩
  | cons q rest ih =>
    intro s e sp ep hs he hv ts h
    obtain ⟨sn, recs⟩ := q
    unfold generate_transfers_report at h ⊢
    cases h1 : serialReport inv sn recs s e with
    | none =>
      rw [h1] at h
      simp at h
    | some ts1 =>
      rw [h1] at h
      dsimp only at h
      cases h2 : generate_transfers_report inv rest s e with
      | none =>
        rw [h2] at h
        simp at h
      | some ts2 =>
        rw [h2] at h
        dsimp only at h
        cases h
        obtain ⟨ts1', hts1', hsub1⟩ := serialReport_mono inv sn recs s e sp ep hs he ts1 h1
        obtain ⟨ts2', hts2', hsub2⟩ := ih s e sp ep hs he hv ts2 h2
        rw [hts1', hts2']
        refine ⟨ts1' ++ ts2', rfl, fun t ht => ?_⟩
        rcases List.mem_append.1 ht with hl | hr
        · exact List.mem_append_left _ (hsub1 t hl)
        · exact List.mem_append_right _ (hsub2 t hr)

/-- Witness for C5: a June-only window reports the mid-June transfer
and the whole-year window keeps it. -/
theorem C5_witness :
    (20240101 : Nat) ≤ 20240601 ∧ (20240630 : Nat) ≤ 20241231 ∧
    (20240601 : Nat) ≤ 20240630 ∧
    generate_transfers_report []
      [("SN1", [⟨"A", "01.01.2024"⟩, ⟨"B", "15.06.2024"⟩])] 20240601 20240630 =
      some [⟨"-", "SN1", "A", "B", "15.06.2024"⟩] ∧
    ∃ ts', generate_transfers_report []
        [("SN1", [⟨"A", "01.01.2024"⟩, ⟨"B", "15.06.2024"⟩])] 20240101 20241231 = some ts' ∧
      ∀ t ∈ [(⟨"-", "SN1", "A", "B", "15.06.2024"⟩ : Transfer)], t ∈ ts' := by
  refine ⟨by decide, by decide, by decide, by decide, ?_⟩
  exact C5_window_monotone [] [("SN1", [⟨"A", "01.01.2024"⟩, ⟨"B", "15.06.2024"⟩])]
    20240601 20240630 20240101 20241231 (by decide) (by decide) (by decide)
    [⟨"-", "SN1", "A", "B", "15.06.2024"⟩] (by decide)

/-! ## Claim C4: ordering of the final transfer list -/

/-- Claim C4 counterexample.  With two serials, the first holding a
December transfer and the second a February one, the report lists the
December transfer first: the final list is ordered by ledger key, not
globally by parsed date, and no final sort exists in the handler. -/
theorem C4_counterexample :
    generate_transfers_report []
      [("A", [⟨"X", "01.01.2024"⟩, ⟨"Y", "01.12.2024"⟩]),
       ("B", [⟨"X", "01.01.2024"⟩, ⟨"Y", "01.02.2024"⟩])] 20240101 20241231 =
      some [⟨"-", "A", "X", "Y", "01.12.2024"⟩, ⟨"-", "B", "X", "Y", "01.02.2024"⟩] ∧
    ¬ List.Sorted dateLE
      [⟨"-", "A", "X", "Y", "01.12.2024"⟩, ⟨"-", "B", "X", "Y", "01.02.2024"⟩] := by
  constructor
  · decide
  · intro hs
    have := List.rel_of_sorted_cons hs ⟨"-", "B", "X", "Y", "01.02.2024"⟩ (by simp)
    revert this
    decide

/-- Shape of an emitted transfer: its fields come from the consecutive
pair that produced it. -/
theorem emitPair_spec (ft sn : String) (s e : Nat) (p c : HistoryEntry × Nat) (t : Transfer)
    (h : emitPair ft sn s e p c = some t) :
    t = ⟨ft, sn, p.1.assignment, c.1.assignment, c.1.date⟩ := by
  unfold emitPair at h
  cases hpd : parseDate c.1.date with
  | none =>
    rw [hpd] at h
    simp at h
  | some tn =>
    rw [hpd] at h
    dsimp only at h
    by_cases heq : p.1.assignment = c.1.assignment
    · rw [if_pos heq] at h
      cases h
    · rw [if_neg heq] at h
      by_cases hr : s ≤ tn ∧ tn ≤ e
      · rw [if_pos hr] at h
        cases h
        rfl
      · rw [if_neg hr] at h
        cases h

/-- Every transfer the walk emits carries the serial it was called
with. -/
theorem walk_serial (ft sn : String) (s e : Nat) :
    ∀ l, ∀ t ∈ walk ft sn s e l, t.serial = sn
  | [] => by simp [walk]
  | [a] => by simp [walk]
  | a :: b :: rest => by
    intro t ht
    unfold walk at ht
    rcases List.mem_append.1 ht with h1 | h2
    · cases hemit : emitPair ft sn s e a b with
      | none =>
        rw [hemit] at h1
        simp at h1
      | some u =>
        rw [hemit] at h1
        obtain rfl : t = u := by simpa using h1
        rw [emitPair_spec ft sn s e a b t hemit]
    · exact walk_serial ft sn s e (b :: rest) t h2

/-- Keys produced by the precomputation are the parses of the carried
record's date. -/
theorem parseAll_inv :
    ∀ (recs : List HistoryEntry) (keyed : List (HistoryEntry × Nat)),
      parseAll recs = some keyed → ∀ x ∈ keyed, parseDate x.1.date = some x.2
  | [], keyed => by
    intro h x hx
    cases h
    simp at hx
  | r :: rs, keyed => by
    intro h x hx
    unfold parseAll at h
    cases hpd : parseDate r.date with
    | none =>
      rw [hpd] at h
      simp at h
    | some n =>
      rw [hpd] at h
      cases hpa : parseAll rs with
      | none =>
        rw [hpa] at h
        simp at h
      | some ks =>
        rw [hpa] at h
        dsimp only at h
        cases h
        rcases List.mem_cons.1 hx with rfl | hx'
        · simpa using hpd
        · exact parseAll_inv rs ks hpa x hx'

/-- Lower bound on the dates of emitted transfers, from a lower bound
on the keys. -/
theorem walk_key_ge (ft sn : String) (s e c0 : Nat) :
    ∀ l, (∀ x ∈ l, parseDate x.1.date = some x.2) → (∀ x ∈ l, c0 ≤ x.2) →
      ∀ t ∈ walk ft sn s e l, c0 ≤ dKey t
  | [] => by simp [walk]
  | [a] => by simp [walk]
  | a :: b :: rest => by
    intro hinv hlb t ht
    unfold walk at ht
    rcases List.mem_append.1 ht with h1 | h2
    · cases hemit : emitPair ft sn s e a b with
      | none =>
        rw [hemit] at h1
        simp at h1
      | some u =>
        rw [hemit] at h1
        obtain rfl : t = u := by simpa using h1
        rw [emitPair_spec ft sn s e a b t hemit]
        show c0 ≤ dKey ⟨ft, sn, a.1.assignment, b.1.assignment, b.1.date⟩
        unfold dKey
        have hbd : parseDate b.1.date = some b.2 := hinv b (by simp)
        simp only [hbd, Option.getD_some]
        exact hlb b (by simp)
    · exact walk_key_ge ft sn s e c0 (b :: rest)
        (fun x hx => hinv x (List.mem_cons_of_mem _ hx))
        (fun x hx => hlb x (List.mem_cons_of_mem _ hx)) t h2

/-- The walk of a key-sorted record list emits transfers in
nondecreasing parsed-date order. -/
theorem walk_sorted (ft sn : String) (s e : Nat) :
    ∀ l, (∀ x ∈ l, parseDate x.1.date = some x.2) → List.Sorted recLe l →
      List.Sorted dateLE (walk ft sn s e l)
  | [] => by
    intro _ _
    simp [walk]
  | [a] => by
    intro _ _
    simp [walk]
  | a :: b :: rest => by
    intro hinv hs
    unfold walk
    refine List.pairwise_append.2 ⟨?_, ?_, ?_⟩
    · cases emitPair ft sn s e a b with
      | none => simp
      | some u => simp
    · exact walk_sorted ft sn s e (b :: rest)
        (fun x hx => hinv x (List.mem_cons_of_mem _ hx)) hs.of_cons
    · intro t ht u hu
      cases hemit : emitPair ft sn s e a b with
      | none =>
        rw [hemit] at ht
        simp at ht
      | some v =>
        rw [hemit] at ht
        obtain rfl : t = v := by simpa using ht
        have hdk : dKey t = b.2 := by
          rw [emitPair_spec ft sn s e a b t hemit]
          unfold dKey
          have hbd : parseDate b.1.date = some b.2 := hinv b (by simp)
          simp only [hbd, Option.getD_some]
        have hsb : List.Sorted recLe (b :: rest) := hs.of_cons
        have hlb : ∀ x ∈ b :: rest, b.2 ≤ x.2 := by
          intro x hx
          rcases List.mem_cons.1 hx with rfl | hx'
          · exact Nat.le_refl _
          · exact List.rel_of_sorted_cons hsb x hx'
        have hge := walk_key_ge ft sn s e b.2 (b :: rest)
          (fun x hx => hinv x (List.mem_cons_of_mem _ hx)) hlb u hu
        show dKey t ≤ dKey u
        rw [hdk]
        exact hge

/-- Each serial's contribution to the report is sorted by parsed
date. -/
theorem serialReport_sorted (inv : List EquipmentRecord) (sn : String)
    (recs : List HistoryEntry) (s e : Nat) (ts : List Transfer)
    (h : serialReport inv sn recs s e = some ts) : List.Sorted dateLE ts := by
  unfold serialReport at h
  by_cases hlen : (validRecords recs).length < 2
  · rw [if_pos hlen] at h
    cases h
    simp
  · rw [if_neg hlen] at h
    cases hpa : parseAll (validRecords recs) with
    | none =>
      rw [hpa] at h
      simp at h
    | some keyed =>
      rw [hpa] at h
      dsimp only at h
      cases h
      refine walk_sorted (findType inv sn) sn s e _ ?_ ?_
      · intro x hx
        exact parseAll_inv (validRecords recs) keyed hpa x ((List.mem_insertionSort recLe).1 hx)
      · exact List.sorted_insertionSort recLe _

/-- Each serial's contribution carries that serial. -/
theorem serialReport_serial (inv : List EquipmentRecord) (sn : String)
    (recs : List HistoryEntry) (s e : Nat) (ts : List Transfer)
    (h : serialReport inv sn recs s e = some ts) : ∀ t ∈ ts, t.serial = sn := by
  unfold serialReport at h
  by_cases hlen : (validRecords recs).length < 2
  · rw [if_pos hlen] at h
    cases h
    simp
  · rw [if_neg hlen] at h
    cases hpa : parseAll (validRecords recs) with
    | none =>
      rw [hpa] at h
      simp at h
    | some keyed =>
      rw [hpa] at h
      dsimp only at h
      cases h
      exact walk_serial (findType inv sn) sn s e _

/-- Every reported transfer's serial is a ledger key. -/
theorem report_serials (inv : List EquipmentRecord) :
    ∀ (hist : HistMap) (s e : Nat) (ts : List Transfer),
      generate_transfers_report inv hist s e = some ts →
      ∀ t ∈ ts, t.serial ∈ hist.map Prod.fst := by
  intro hist
  induction hist with
  | nil =>
    intro s e ts h t ht
    cases h
    simp at ht
  | cons q rest ih =>
    intro s e ts h t ht
    obtain ⟨sn, recs⟩ := q
    unfold generate_transfers_report at h
    cases h1 : serialReport inv sn recs s e with
    | none =>
      rw [h1] at h
      simp at h
    | some ts1 =>
      rw [h1] at h
      dsimp only at h
      cases h2 : generate_transfers_report inv rest s e with
      | none =>
        rw [h2] at h
        simp at h
      | some ts2 =>
        rw [h2] at h
        dsimp only at h
        cases h
        rcases List.mem_append.1 ht with hl | hr
        · have := serialReport_serial inv sn recs s e ts1 h1 t hl
          simp [this]
        · have := ih s e ts2 h2 t hr
          simp only [List.map_cons]
          exact List.mem_cons_of_mem _ this

/-- Claim C4 as amended.  For a ledger with pairwise-distinct keys the
report is sorted ascending by parsed transfer date only within each
serial number's group: selecting any one serial from the result yields
a date-sorted sublist (while the whole list, as the counterexample
shows, follows ledger key order and need not be globally sorted). -/
theorem C4_amended (inv : List EquipmentRecord) :
    ∀ (hist : HistMap) (s e : Nat) (ts : List Transfer),
      (hist.map Prod.fst).Nodup →
      generate_transfers_report inv hist s e = some ts →
      ∀ serial, List.Sorted dateLE (ts.filter (fun t => t.serial = serial)) := by
  intro hist
  induction hist with
  | nil =>
    intro s e ts _ h serial
    cases h
    simp
  | cons q rest ih =>
    intro s e ts hk hok serial
    obtain ⟨sn, recs⟩ := q
    simp only [List.map_cons, List.nodup_cons] at hk
    obtain ⟨hk1, hk2⟩ := hk
    unfold generate_transfers_report at hok
    cases h1 : serialReport inv sn recs s e with
    | none =>
      rw [h1] at hok
      simp at hok
    | some ts1 =>
      rw [h1] at hok
      dsimp only at hok
      cases h2 : generate_transfers_report inv rest s e with
      | none =>
        rw [h2] at hok
        simp at hok
      | some ts2 =>
        rw [h2] at hok
        dsimp only at hok
        cases hok
        rw [List.filter_append]
        by_cases hsn : serial = sn
        · have hf1 : ts1.filter (fun t => t.serial = serial) = ts1 := by
            refine List.filter_eq_self.2 ?_
            intro t ht
            have hts := serialReport_serial inv sn recs s e ts1 h1 t ht
            simp [hts, hsn]
          have hf2 : ts2.filter (fun t => t.serial = serial) = [] := by
            refine List.filter_eq_nil_iff.2 ?_
            intro t ht
            have hmem := report_serials inv rest s e ts2 h2 t ht
            simp only [decide_eq_true_eq]
            intro hts
            rw [hts, hsn] at hmem
            exact hk1 hmem
          rw [hf1, hf2, List.append_nil]
          exact serialReport_sorted inv sn recs s e ts1 h1
        · have hf1 : ts1.filter (fun t => t.serial = serial) = [] := by
            refine List.filter_eq_nil_iff.2 ?_
            intro t ht
            have hts := serialReport_serial inv sn recs s e ts1 h1 t ht
            simp only [decide_eq_true_eq]
            intro hts'
            exact hsn (hts' ▸ hts)
          rw [hf1, List.nil_append]
          exact ih s e ts2 hk2 h2 serial

/-- Witness for C4 as amended on the two-serial counterexample ledger:
each serial's selected rows are date-sorted even though the whole list
is not. -/
theorem C4_amended_witness :
    (([("A", [⟨"X", "01.01.2024"⟩, ⟨"Y", "01.12.2024"⟩]),
       ("B", [⟨"X", "01.01.2024"⟩, ⟨"Y", "01.02.2024"⟩])] : HistMap).map Prod.fst).Nodup ∧
    generate_transfers_report []
      [("A", [⟨"X", "01.01.2024"⟩, ⟨"Y", "01.12.2024"⟩]),
       ("B", [⟨"X", "01.01.2024"⟩, ⟨"Y", "01.02.2024"⟩])] 20240101 20241231 =
      some [⟨"-", "A", "X", "Y", "01.12.2024"⟩, ⟨"-", "B", "X", "Y", "01.02.2024"⟩] ∧
    List.Sorted dateLE
      (([⟨"-", "A", "X", "Y", "01.12.2024"⟩,
         ⟨"-", "B", "X", "Y", "01.02.2024"⟩] : List Transfer).filter
        (fun t => t.serial = "A")) := by
  refine ⟨by decide, by decide, ?_⟩
  exact C4_amended []
    [("A", [⟨"X", "01.01.2024"⟩, ⟨"Y", "01.12.2024"⟩]),
     ("B", [⟨"X", "01.01.2024"⟩, ⟨"Y", "01.02.2024"⟩])] 20240101 20241231
    [⟨"-", "A", "X", "Y", "01.12.2024"⟩, ⟨"-", "B", "X", "Y", "01.02.2024"⟩]
    (by decide) (by decide) "A"

end Inventory
